import Mathlib

/-!
Shallow embedding of the TF-IDF vector-space retrieval engine
(`src/VectorModel.py`) and theorems checking the specification's claims
against it.

Modelling conventions:
* A processed document is a pair `(doc id, first line of the file)`; the
  corpus is the directory listing, in `os.listdir` order.  File I/O is
  modelled by passing this list around; `doc_path` strings are the ids.
* Python dicts are association lists (`List (key × value)`) in insertion
  order; lookup of a missing key (a `KeyError`) is `Option`-valued.
* Python floats are modelled as real numbers; `math.log` is `Real.log`
  and `np.linalg.norm` is `Real.sqrt` of the sum of squares.  A float
  division `0/0` (the only division-by-zero the code can produce in
  `cosine_similarity`, since a zero denominator forces a zero numerator)
  yields IEEE NaN, modelled as `none : Option ℝ`.
* Python `set(...)` iteration order is unspecified; it is modelled with
  `List.dedup`.  All theorems proved about orderings are insensitive to
  this choice, and concrete counterexamples use singleton sets.
-/

namespace VecIR

/-- Association-list lookup, modelling a Python dict read: `d[k]`
returns the value, a missing key is a `KeyError`, modelled `none`. -/
def alookup {β : Type} : List (String × β) → String → Option β
  | [], _ => none
  | e :: tl, a => if e.1 = a then some e.2 else alookup tl a

/-- Splits a character list at every separator character (a character
satisfying `p`), keeping empty chunks, exactly like Python's
`str.split(sep)` with an explicit one-character separator. -/
def splitAny (p : Char → Bool) : List Char → List (List Char)
  | [] => [[]]
  | c :: rest =>
    match splitAny p rest with
    | [] => [[c]]
    | g :: gs => if p c then [] :: g :: gs else (c :: g) :: gs

/-- Python `str.split()` with no argument: split on whitespace runs and
drop empty chunks.  Applied to a document's first line it yields the
token list `text.split()`. -/
def pytokens (line : String) : List String :=
  ((splitAny Char.isWhitespace line.data).filter (fun g => !g.isEmpty)).map String.mk

/-- Python `str.split(" ")`: split on each single space, keeping empty
chunks (used by `find_similar_with_index` on the raw query). -/
def pySplitSpace (s : String) : List String :=
  (splitAny (fun c => c == ' ') s.data).map String.mk

/-- Python `str.lower()` (character-wise lowering). -/
def pyLower (s : String) : String := String.mk (s.data.map Char.toLower)

/-- Auxiliary scan for Python `str.count`: counts non-overlapping
occurrences of the (nonempty) pattern `sub`, advancing past a match.
The scan consumes at least one character per step, so the structural
fuel argument (initialised to the text length) never runs out; it is
there only to make the recursion structural, so terms reduce. -/
def pyCountAux (sub : List Char) : ℕ → List Char → ℕ
  | _, [] => 0
  | 0, _ => 0
  | fuel + 1, c :: tl =>
    if sub.isPrefixOf (c :: tl) then 1 + pyCountAux sub fuel (tl.drop (sub.length - 1))
    else pyCountAux sub fuel tl

/-- Python `str.count(sub)`: the number of non-overlapping occurrences
of the substring `sub` in `text` (an empty pattern counts `len + 1`).
This is a substring count, not a token count — `_generate_tfs_dfs`
stores `text.count(term)`. -/
def pyCount (text sub : String) : ℕ :=
  if sub.data.isEmpty then text.data.length + 1
  else pyCountAux sub.data text.data.length text.data

/-- Code-point lexicographic comparison of strings (Python `<` used by
`list.sort()` on the vocabulary). -/
def lexLt : List Char → List Char → Bool
  | [], [] => false
  | [], _ :: _ => true
  | _ :: _, [] => false
  | a :: as, b :: bs =>
    if a.toNat < b.toNat then true
    else if b.toNat < a.toNat then false
    else lexLt as bs

/-- Insertion step of the sort used for the vocabulary word list. -/
def insertSorted (x : String) : List String → List String
  | [] => [x]
  | y :: ys => if lexLt x.data y.data then x :: y :: ys else y :: insertSorted x ys

/-- Python `list.sort()` on strings (the vocabulary is sorted
lexicographically; the input it is applied to is duplicate-free). -/
def sortStrings : List String → List String
  | [] => []
  | x :: xs => insertSorted x (sortStrings xs)

/-- The model state built by `VectorModel.__init__`: document count,
term-to-coordinate mapping, its size, and the tf / df tables.  The
processed corpus is carried so that methods that re-read files
(`weights_for_doc`) can be modelled. -/
structure VectorModel where
  processed : List (String × String)
  doc_count : ℕ
  vmList : List (String × ℕ)
  num_terms : ℕ
  tfs : List (String × List (String × ℕ))
  dfs : List (String × ℕ)

/-- Python `set(text.split())`: the distinct terms of one document. -/
def docTerms (line : String) : List String := (pytokens line).dedup

/-- The sorted vocabulary word list of `_vector_mapping`: the union of
the documents' term sets, sorted lexicographically. -/
def vocabWords (corpus : List (String × String)) : List String :=
  sortStrings ((corpus.map fun d => pytokens d.2).flatten).dedup

/-- `_vector_mapping`: `dict(zip(words, range(len(words))))`. -/
def mkVmList (corpus : List (String × String)) : List (String × ℕ) :=
  (vocabWords corpus).zip (List.range (vocabWords corpus).length)

/-- The tf table of `_generate_tfs_dfs`: for each document, each of its
distinct terms is mapped to `text.count(term)` — Python's substring
count over the first line.  Document ids are distinct files, so the
`if doc_path not in tfs` guard reduces to one entry per document. -/
def tfsOf (corpus : List (String × String)) : List (String × List (String × ℕ)) :=
  corpus.map fun d => (d.1, (docTerms d.2).map fun t => (t, pyCount d.2 t))

/-- One document-frequency update of `_generate_tfs_dfs`:
`dfs[term] = 1` if absent, else `dfs[term] += 1`. -/
def bumpDf (dfs : List (String × ℕ)) (t : String) : List (String × ℕ) :=
  match alookup dfs t with
  | some _ => dfs.map fun e => if e.1 = t then (e.1, e.2 + 1) else e
  | none => dfs ++ [(t, 1)]

/-- The df table of `_generate_tfs_dfs`: fold the per-document term
sets over the corpus, bumping each term's count once per document. -/
def dfsOf (corpus : List (String × String)) : List (String × ℕ) :=
  corpus.foldl (fun dfs d => (docTerms d.2).foldl bumpDf dfs) []

/-- `VectorModel.__init__`: scans the processed directory, counts the
documents, builds the vector mapping, its size, and the tf/df tables.
It performs no emptiness or consistency check and cannot fail. -/
def mkVectorModel (corpus : List (String × String)) : VectorModel :=
  { processed := corpus
    doc_count := corpus.length
    vmList := mkVmList corpus
    num_terms := (mkVmList corpus).length
    tfs := tfsOf corpus
    dfs := dfsOf corpus }

/-- `tf(term, doc_path)`: reads `self.tfs[doc_path][term]`; either
missing key is a `KeyError`, modelled `none`. -/
def VectorModel.tf (m : VectorModel) (term doc_path : String) : Option ℕ :=
  (alookup m.tfs doc_path).bind fun tbl => alookup tbl term

/-- `df(term)`: reads `self.dfs[term]`; a missing term is a `KeyError`. -/
def VectorModel.df (m : VectorModel) (term : String) : Option ℕ :=
  alookup m.dfs term

/-- `idf(term) = math.log(self.doc_count / self.df(term))`; fails when
`df` does. -/
noncomputable def VectorModel.idf (m : VectorModel) (term : String) : Option ℝ :=
  (m.df term).map fun d => Real.log ((m.doc_count : ℝ) / (d : ℝ))

/-- `tf_query(term, query_words) = query_words.count(term)` (list
element count; never fails). -/
def tf_query (term : String) (query_words : List String) : ℕ :=
  query_words.count term

/-- `tf_idf_weight(term, doc_path) = tf(term, doc_path) * idf(term)`;
Python evaluates `tf` first, so its `KeyError` precedes `idf`'s. -/
noncomputable def VectorModel.tf_idf_weight (m : VectorModel) (term doc_path : String) :
    Option ℝ :=
  (m.tf term doc_path).bind fun c => (m.idf term).map fun i => (c : ℝ) * i

/-- `tf_idf_weight_query(term, query_words) = tf_query * idf(term)`. -/
noncomputable def VectorModel.tf_idf_weight_query (m : VectorModel) (term : String)
    (query_words : List String) : Option ℝ :=
  (m.idf term).map fun i => (tf_query term query_words : ℝ) * i

/-- `weights_for_doc(doc_path)`: re-reads the document's first line
(a missing file is an I/O error, modelled `none`), allocates
`np.zeros(num_terms)` and sets the coordinate of each distinct term to
its tf-idf weight.  The coordinate (`self.vector_mapping[term]`) and
weight lookups can raise, hence the `Option` threading. -/
noncomputable def VectorModel.weights_for_doc (m : VectorModel) (doc_path : String) :
    Option (List ℝ) :=
  (alookup m.processed doc_path).bind fun line =>
    (docTerms line).foldl
      (fun w t =>
        w.bind fun wv =>
          (alookup m.vmList t).bind fun i =>
            (m.tf_idf_weight t doc_path).map fun x => wv.set i x)
      (some (List.replicate m.num_terms 0))

/-- The loop body of `query_vectorize`: skip an out-of-vocabulary term
(`continue`), otherwise set its coordinate to the query tf-idf weight
(whose possible `KeyError` propagates through the `Option` bind). -/
noncomputable def qvStep (m : VectorModel) (query_words : List String)
    (w : Option (List ℝ)) (t : String) : Option (List ℝ) :=
  w.bind fun wv =>
    match alookup m.vmList t with
    | none => some wv
    | some i => (m.tf_idf_weight_query t query_words).map fun x => wv.set i x

/-- `query_vectorize(query_words)`: allocates `np.zeros(num_terms)`,
then runs `qvStep` over the distinct query terms (`set(query_words)`). -/
noncomputable def VectorModel.query_vectorize (m : VectorModel) (query_words : List String) :
    Option (List ℝ) :=
  query_words.dedup.foldl (qvStep m query_words) (some (List.replicate m.num_terms 0))

/-- `np.dot` of two equal-length dense vectors (on ragged inputs NumPy
raises; theorems that depend on values carry length hypotheses). -/
def dot (v1 v2 : List ℝ) : ℝ := ((v1.zip v2).map fun p => p.1 * p.2).sum

/-- `np.linalg.norm v = sqrt (v ⬝ v)`. -/
noncomputable def norm (v : List ℝ) : ℝ := Real.sqrt (dot v v)

open Classical in
/-- `cosine_similarity(v1, v2) = np.dot(v1, v2) / (norm(v1) * norm(v2))`
in floats.  When the denominator is zero the numerator is forced to
zero as well (a zero-norm real vector is the zero vector), so the
division is exactly `0.0 / 0.0 = NaN`; NaN is modelled as `none`.
Otherwise the finite quotient is returned. -/
noncomputable def cosine_similarity (v1 v2 : List ℝ) : Option ℝ :=
  if norm v1 * norm v2 = 0 then none
  else some (dot v1 v2 / (norm v1 * norm v2))

/-- Python `<` on two float scores: `False` whenever either side is
NaN (`none`), the real comparison otherwise. -/
def pyGt (a b : Option ℝ) : Prop := ∃ x y, a = some x ∧ b = some y ∧ y < x

open Classical in
/-- One insertion step of a stable descending sort on `(score, name)`
pairs: the new pair moves left past exactly the strictly smaller
scores, so equal (and NaN) scores keep their first-seen order. -/
noncomputable def insertD (x : Option ℝ × String) :
    List (Option ℝ × String) → List (Option ℝ × String)
  | [] => [x]
  | y :: ys => if pyGt x.1 y.1 then x :: y :: ys else y :: insertD x ys

/-- Stable descending sort by score, processing pairs first-to-last.
This models both `sorted(..., key=lambda t: t[0], reverse=True)` and
the selection order of `heapq.nlargest` (documented equivalent to the
truncated descending stable sort) for comparable (non-NaN) scores; on
the concrete NaN counterexamples below it matches a hand trace of the
CPython heap code. -/
noncomputable def sortByScoreDesc (l : List (Option ℝ × String)) :
    List (Option ℝ × String) :=
  l.foldl (fun acc x => insertD x acc) []

/-- `heapq.nlargest(k, ..., key)`: the `k` largest scored pairs in
descending order, ties keeping scan order. -/
noncomputable def pyNlargest (k : ℕ) (l : List (Option ℝ × String)) :
    List (Option ℝ × String) :=
  (sortByScoreDesc l).take k

open Classical in
/-- `find_similar(vectors, q_v, k)`: short-circuits to `[]` when no
entry of `q_v` is nonzero (`if not q_v.any()`), otherwise scores every
document, keeps a score `r` when `if r:` holds — i.e. when `r` is not
exactly `0.0` (NaN is truthy!) — and returns the names of the top `k`
by score. -/
noncomputable def find_similar (vectors : List (String × List ℝ)) (q_v : List ℝ) (k : ℕ) :
    List String :=
  if ∀ x ∈ q_v, x = 0 then []
  else
    (pyNlargest k (vectors.foldl
        (fun acc e =>
          let r := cosine_similarity e.2 q_v
          if r ≠ some 0 then acc ++ [(r, e.1)] else acc)
        [])).map Prod.snd

/-- A dense vector read `vector[i]`.  NumPy raises on an out-of-range
coordinate; the total `getD` default is only reached in that situation,
which the theorems below exclude by length hypotheses. -/
def vecGet (v : List ℝ) (i : ℕ) : ℝ := v.getD i 0

/-- The in-memory inverted index `{term : list(documents)}` in dict
insertion order. -/
abbrev Index := List (String × List String)

/-- `self.inverted_index[term].append(filename)` on a `defaultdict`:
appends to the existing posting list, or inserts the key at the end of
the dict with the one-element list. -/
def ddAppend (idx : Index) (t f : String) : Index :=
  match alookup idx t with
  | some _ => idx.map fun e => if e.1 = t then (e.1, e.2 ++ [f]) else e
  | none => idx ++ [(t, [f])]

open Classical in
/-- `create_inverted_index(vectors)`: for every stored vector and every
vocabulary term, append the document to the term's posting list when
the vector is strictly positive at the term's coordinate.  The index it
updates (`self.inverted_index`, empty after `__init__`) is passed and
returned explicitly. -/
noncomputable def create_inverted_index (m : VectorModel)
    (vectors : List (String × List ℝ)) (idx0 : Index) : Index :=
  vectors.foldl
    (fun idx e =>
      m.vmList.foldl
        (fun idx tp => if 0 < vecGet e.2 tp.2 then ddAppend idx tp.1 e.1 else idx)
        idx)
    idx0

/-- The posting list of a term as the claims read it (no defaultdict
side effect: a missing term reads as the empty list). -/
def postingsOf (idx : Index) (t : String) : List String :=
  (alookup idx t).getD []

/-- A `defaultdict(list)` read `self.inverted_index[t]`: returns the
posting list, but also inserts an empty list under a missing key —
the read mutates the dict. -/
def ddGet (idx : Index) (t : String) : List String × Index :=
  match alookup idx t with
  | some l => (l, idx)
  | none => ([], idx ++ [(t, [])])

/-- The index path's query normalisation:
`list(set([w.lower() for w in query.split(" ")]))` — a raw lowercase
single-space split, not the external normalizer. -/
def queryTerms (query : String) : List String :=
  ((pySplitSpace query).map pyLower).dedup

/-- The candidate-gathering comprehension
`[doc for t in terms for doc in self.inverted_index[t]]`, threading the
defaultdict state through each (mutating) read. -/
def gatherPostings (idx : Index) (ts : List String) : List String × Index :=
  ts.foldl (fun st t => ((st.1 ++ (ddGet st.2 t).1), (ddGet st.2 t).2)) ([], idx)

/-- `find_similar_with_index(vectors, query, q_v)`: unions the posting
lists of the raw query terms, deduplicates (`list(set(...))`), scores
every candidate against `q_v`, and returns all of them sorted by
descending similarity, together with the possibly-grown index state. -/
noncomputable def find_similar_with_index (idx : Index)
    (vectors : List (String × List ℝ)) (query : String) (q_v : List ℝ) :
    List String × Index :=
  let gathered := gatherPostings idx (queryTerms query)
  let relevant_docs := gathered.1.dedup
  let sim_results := relevant_docs.map fun d =>
    (cosine_similarity ((alookup vectors d).getD []) q_v, d)
  ((sortByScoreDesc sim_results).map Prod.snd, gathered.2)

/-- The filename filter of `load_vectors`:
`re.search("(.+).npy", v_path)` matches when `"npy"` occurs at an index
`j ≥ 2` (one-or-more characters for `(.+)`, then one character for the
unescaped dot); greedy matching picks the largest such `j`, and
`group(1)` is the first `j - 1` characters. -/
def npyStem (s : String) : Option String :=
  match (List.range s.data.length).foldl
      (fun acc j =>
        if 2 ≤ j ∧ (s.data.drop j).take 3 = ['n', 'p', 'y'] then some j else acc)
      none with
  | none => none
  | some j => some (String.mk (s.data.take (j - 1)))

/-- `load_vectors(weights_path)`: walks the store directory, keeps the
files matching the `(.+).npy` pattern, and loads each array unchanged
under the extension-stripped path.  No shape or dimensionality check of
any kind is performed. -/
def load_vectors (weights_path : String) (store : List (String × List ℝ)) :
    List (String × List ℝ) :=
  store.foldl
    (fun acc e =>
      match npyStem (weights_path ++ "/" ++ e.1) with
      | some stem => acc ++ [(stem, e.2)]
      | none => acc)
    []

/-- Score comparison used to state "sorted by non-increasing
similarity": both scores are actual numbers (not NaN) and the left one
is at least the right one. -/
def scoreGe (a b : Option ℝ) : Prop := ∃ x y, a = some x ∧ b = some y ∧ y ≤ x

/-- The similarity a caller observes for a returned document name: look
the name up in the vectors mapping and score it against the query
vector (statement-level glue composed of the embedded operations). -/
noncomputable def simOf (vectors : List (String × List ℝ)) (q_v : List ℝ) (f : String) :
    Option ℝ :=
  (alookup vectors f).bind fun v => cosine_similarity v q_v

/-! ### Basic lemmas about the numeric kernel -/

lemma zip_self_eq_map (v : List ℝ) : v.zip v = v.map fun a => (a, a) := by
  induction v with
  | nil => rfl
  | cons a tl ih => simp [List.zip_cons_cons, ih]

lemma dot_self_eq (v : List ℝ) : dot v v = (v.map fun a => a * a).sum := by
  unfold dot
  rw [zip_self_eq_map, List.map_map]
  rfl

lemma sum_sq_nonneg (l : List ℝ) : 0 ≤ (l.map fun a => a * a).sum := by
  apply List.sum_nonneg
  intro x hx
  obtain ⟨a, -, rfl⟩ := List.mem_map.mp hx
  exact mul_self_nonneg a

lemma dot_self_nonneg (v : List ℝ) : 0 ≤ dot v v := by
  rw [dot_self_eq]; exact sum_sq_nonneg v

lemma dot_self_eq_zero_iff (v : List ℝ) : dot v v = 0 ↔ ∀ x ∈ v, x = 0 := by
  rw [dot_self_eq]
  induction v with
  | nil => simp
  | cons a tl ih =>
    simp only [List.map_cons, List.sum_cons, List.forall_mem_cons]
    rw [add_eq_zero_iff_of_nonneg (mul_self_nonneg a) (sum_sq_nonneg tl),
      mul_self_eq_zero, ih]

lemma norm_eq_zero_iff (v : List ℝ) : norm v = 0 ↔ dot v v = 0 := by
  unfold norm
  rw [Real.sqrt_eq_zero']
  exact ⟨fun h => le_antisymm h (dot_self_nonneg v), le_of_eq⟩

lemma cosine_eq_none_iff (v1 v2 : List ℝ) :
    cosine_similarity v1 v2 = none ↔ dot v1 v1 = 0 ∨ dot v2 v2 = 0 := by
  unfold cosine_similarity
  by_cases h : norm v1 * norm v2 = 0
  · rw [if_pos h]
    simp only [true_iff]
    rcases mul_eq_zero.mp h with h1 | h1
    · exact Or.inl ((norm_eq_zero_iff v1).mp h1)
    · exact Or.inr ((norm_eq_zero_iff v2).mp h1)
  · rw [if_neg h]
    simp only [reduceCtorEq, false_iff]
    intro hc
    apply h
    rcases hc with h1 | h1
    · rw [(norm_eq_zero_iff v1).mpr h1, zero_mul]
    · rw [(norm_eq_zero_iff v2).mpr h1, mul_zero]

lemma cosine_eq_some (v1 v2 : List ℝ) (h1 : dot v1 v1 ≠ 0) (h2 : dot v2 v2 ≠ 0) :
    cosine_similarity v1 v2 = some (dot v1 v2 / (norm v1 * norm v2)) := by
  unfold cosine_similarity
  rw [if_neg]
  intro h
  rcases mul_eq_zero.mp h with hn | hn
  · exact h1 ((norm_eq_zero_iff v1).mp hn)
  · exact h2 ((norm_eq_zero_iff v2).mp hn)

/-! ### Association-list lemmas -/

lemma alookup_append_of_some {β : Type} {l : List (String × β)} {t : String} {v : β}
    (r : List (String × β)) (h : alookup l t = some v) : alookup (l ++ r) t = some v := by
  induction l with
  | nil => simp [alookup] at h
  | cons e tl ih =>
    rw [List.cons_append]
    unfold alookup at h ⊢
    by_cases he : e.1 = t
    · rwa [if_pos he] at h ⊢
    · rw [if_neg he] at h ⊢
      exact ih h

lemma alookup_append_of_none {β : Type} {l : List (String × β)} {t : String}
    (r : List (String × β)) (h : alookup l t = none) : alookup (l ++ r) t = alookup r t := by
  induction l with
  | nil => rfl
  | cons e tl ih =>
    rw [List.cons_append]
    simp only [alookup] at h ⊢
    by_cases he : e.1 = t
    · rw [if_pos he] at h
      exact absurd h (by simp)
    · rw [if_neg he] at h ⊢
      exact ih h

lemma alookup_mem {β : Type} {l : List (String × β)} {t : String} {v : β}
    (h : alookup l t = some v) : (t, v) ∈ l := by
  induction l with
  | nil => simp [alookup] at h
  | cons e tl ih =>
    simp only [alookup] at h
    by_cases he : e.1 = t
    · rw [if_pos he] at h
      have hev : (t, v) = e := by
        obtain ⟨e1, e2⟩ := e
        cases h
        rw [← he]
      rw [hev]
      exact List.mem_cons_self e tl
    · rw [if_neg he] at h
      exact List.mem_cons_of_mem _ (ih h)

lemma mem_alookup {β : Type} {l : List (String × β)} {t : String} {v : β}
    (hnd : (l.map Prod.fst).Nodup) (h : (t, v) ∈ l) : alookup l t = some v := by
  induction l with
  | nil => simp at h
  | cons e tl ih =>
    simp only [List.map_cons, List.nodup_cons] at hnd
    rcases List.mem_cons.mp h with h | h
    · unfold alookup
      rw [← h, if_pos rfl]
    · unfold alookup
      have he : e.1 ≠ t := by
        intro hc
        exact hnd.1 (hc ▸ (List.mem_map.mpr ⟨(t, v), h, rfl⟩))
      rw [if_neg he]
      exact ih hnd.2 h

lemma alookup_eq_none {β : Type} {l : List (String × β)} {t : String}
    (h : t ∉ l.map Prod.fst) : alookup l t = none := by
  induction l with
  | nil => rfl
  | cons e tl ih =>
    simp only [List.map_cons, List.mem_cons, not_or] at h
    unfold alookup
    rw [if_neg (fun hc => h.1 hc.symm)]
    exact ih h.2

lemma alookup_isSome_of_mem_keys {β : Type} {l : List (String × β)} {t : String}
    (h : t ∈ l.map Prod.fst) : ∃ v, alookup l t = some v := by
  induction l with
  | nil => simp at h
  | cons e tl ih =>
    simp only [alookup]
    by_cases he : e.1 = t
    · exact ⟨e.2, if_pos he⟩
    · rw [if_neg he]
      apply ih
      simp only [List.map_cons, List.mem_cons] at h
      rcases h with h | h
      · exact absurd h.symm he
      · exact h

lemma alookup_none_not_mem {β : Type} {l : List (String × β)} {t : String}
    (h : alookup l t = none) : t ∉ l.map Prod.fst := by
  intro hc
  obtain ⟨v, hv⟩ := alookup_isSome_of_mem_keys hc
  rw [h] at hv
  exact Option.noConfusion hv

lemma nodup_keys_val_unique {β : Type} {l : List (String × β)} {d : String} {v v' : β}
    (hnd : (l.map Prod.fst).Nodup) (h : (d, v) ∈ l) (h' : (d, v') ∈ l) : v = v' := by
  have hv := mem_alookup hnd h
  have hv' := mem_alookup hnd h'
  rw [hv] at hv'
  exact Option.some.inj hv'

/-! ### Claims

Each claim of the specification review is settled by exactly one
theorem below (with a witness when the theorem carries hypotheses, and
a concrete counterexample when the claim as stated fails on the code).
-/

/-- C1 (counterexample): the claim says `cosine_similarity` returns
exactly `0` for a zero-norm operand and that ranking-path callers never
receive a NaN similarity.  On the code, `cosine_similarity([0.], [1.])`
is `0.0 / 0.0 = NaN` (here `none`), not `0`; and `find_similar` keeps
that NaN score (NaN is truthy in `if r:`), so the caller receives a
document ranked by NaN. -/
theorem c1_counterexample :
    cosine_similarity [(0 : ℝ)] [1] = none ∧
    cosine_similarity [(0 : ℝ)] [1] ≠ some 0 ∧
    find_similar [("d", [(0 : ℝ)])] [1] 1 = ["d"] := by
  have hc : cosine_similarity [(0 : ℝ)] [1] = none := by
    rw [cosine_eq_none_iff]
    left
    simp [dot]
  refine ⟨hc, by simp [hc], ?_⟩
  rw [find_similar, if_neg (by simp)]
  simp [pyNlargest, sortByScoreDesc, insertD, hc]

/-- C1 (amended): `cosine_similarity` returns NaN (`none`) — never `0`
and never a crash — exactly when one of the vectors has zero norm
(equivalently, a zero self-dot-product); for operands of nonzero norm
it returns the finite quotient `dot / (norm * norm)`. -/
theorem c1_amended_zero_norm_nan (v1 v2 : List ℝ) :
    (cosine_similarity v1 v2 = none ↔ dot v1 v1 = 0 ∨ dot v2 v2 = 0) ∧
    (dot v1 v1 ≠ 0 → dot v2 v2 ≠ 0 →
      cosine_similarity v1 v2 = some (dot v1 v2 / (norm v1 * norm v2))) :=
  ⟨cosine_eq_none_iff v1 v2, cosine_eq_some v1 v2⟩

/-- C1 (witness): the amended theorem applied at `[3, 4]` and `[1, 0]`,
discharging the nonzero-norm side conditions concretely. -/
theorem c1_witness :
    dot [(3 : ℝ), 4] [3, 4] ≠ 0 ∧ dot [(1 : ℝ), 0] [1, 0] ≠ 0 ∧
    (cosine_similarity [(3 : ℝ), 4] [1, 0] = none ↔
      dot [(3 : ℝ), 4] [3, 4] = 0 ∨ dot [(1 : ℝ), 0] [1, 0] = 0) ∧
    cosine_similarity [(3 : ℝ), 4] [1, 0] =
      some (dot [(3 : ℝ), 4] [1, 0] / (norm [(3 : ℝ), 4] * norm [(1 : ℝ), 0])) := by
  have h1 : dot [(3 : ℝ), 4] [3, 4] ≠ 0 := by simp [dot]; norm_num
  have h2 : dot [(1 : ℝ), 0] [1, 0] ≠ 0 := by simp [dot]
  exact ⟨h1, h2, (c1_amended_zero_norm_nan [(3 : ℝ), 4] [1, 0]).1,
    (c1_amended_zero_norm_nan [(3 : ℝ), 4] [1, 0]).2 h1 h2⟩

/-- C3 (code evaluation at the failing input): for a document whose
first line is `"cat catalog"`, the claim says the stored term frequency
of `"cat"` is its token count `1`; the code stores
`text.count("cat") = 2`, the substring count (the docstring of `tf`,
"Number of times term (word) occured in doc", describes the token
count). -/
theorem c3_code_eval :
    (mkVectorModel [("d", "cat catalog")]).tf "cat" "d" = some 2 ∧
    (pytokens "cat catalog").count "cat" = 1 := by
  constructor
  · decide
  · decide

/-- C7 (counterexample): on the empty corpus, construction does not
fail fast — `VectorModel.__init__` performs no check at all and yields
a normal model with `doc_count = 0` and `V = 0`; the undefined-idf
failure surfaces only later, as a `KeyError` inside `idf`'s `df`
lookup. -/
theorem c7_counterexample :
    (mkVectorModel []).doc_count = 0 ∧ (mkVectorModel []).num_terms = 0 ∧
    (mkVectorModel []).idf "america" = none :=
  ⟨rfl, rfl, rfl⟩

/-- C7 (amended): construction on the empty corpus succeeds with
`doc_count = 0`, `V = 0` and empty tables; there is no eager
"empty corpus" failure, and every later `df`/`idf`/weight computation
fails with a lookup error instead of a clean condition. -/
theorem c7_amended_no_empty_corpus_check :
    (mkVectorModel []).doc_count = 0 ∧ (mkVectorModel []).num_terms = 0 ∧
    (∀ t, (mkVectorModel []).df t = none) ∧
    (∀ t, (mkVectorModel []).idf t = none) ∧
    (∀ t d, (mkVectorModel []).tf_idf_weight t d = none) :=
  ⟨rfl, rfl, fun _ => rfl, fun _ => rfl, fun _ _ => rfl⟩

lemma load_vectors_foldl (wp : String) (l : List (String × List ℝ))
    (acc : List (String × List ℝ)) :
    l.foldl
      (fun acc e =>
        match npyStem (wp ++ "/" ++ e.1) with
        | some stem => acc ++ [(stem, e.2)]
        | none => acc)
      acc =
    acc ++ l.filterMap fun e => (npyStem (wp ++ "/" ++ e.1)).map fun stem => (stem, e.2) := by
  induction l generalizing acc with
  | nil => simp
  | cons e tl ih =>
    rw [List.foldl_cons, List.filterMap_cons]
    cases h : npyStem (wp ++ "/" ++ e.1) with
    | none => simp only [h, Option.map_none']; exact ih acc
    | some stem =>
      simp only [h, Option.map_some']
      rw [ih (acc ++ [(stem, e.2)]), List.append_assoc]
      rfl

/-- C8 (amended): `load_vectors` performs no dimensionality check of
any kind: it returns exactly the entries whose filename matches the
`(.+).npy` pattern, each stored array passed through unchanged, so a
vector whose length disagrees with the current vocabulary size is
loaded as-is. -/
theorem c8_amended_load_no_dim_check (wp : String) (store : List (String × List ℝ)) :
    load_vectors wp store =
      (store.filterMap fun e => (npyStem (wp ++ "/" ++ e.1)).map fun stem => (stem, e.2)) ∧
    ∀ n v, (n, v) ∈ load_vectors wp store → ∃ f, (f, v) ∈ store := by
  have h : load_vectors wp store =
      store.filterMap fun e => (npyStem (wp ++ "/" ++ e.1)).map fun stem => (stem, e.2) := by
    rw [load_vectors, load_vectors_foldl wp store [], List.nil_append]
  refine ⟨h, fun n v hm => ?_⟩
  rw [h] at hm
  obtain ⟨e, he, hmap⟩ := List.mem_filterMap.mp hm
  obtain ⟨stem, -, h2⟩ := Option.map_eq_some'.mp hmap
  refine ⟨e.1, ?_⟩
  have hv : e.2 = v := congrArg Prod.snd h2
  rw [← hv]
  exact he

/-- C8 (counterexample): with a one-term vocabulary (`V = 1`), a
persisted entry holding a three-dimensional vector is neither rejected
nor skipped by `load_vectors` — it is loaded unchanged under its
extension-stripped name. -/
theorem c8_counterexample :
    (mkVectorModel [("d", "a")]).num_terms = 1 ∧
    load_vectors "w" [("x.npy", [(1 : ℝ), 2, 3])] = [("w/x", [(1 : ℝ), 2, 3])] ∧
    ([(1 : ℝ), 2, 3].length : ℕ) ≠ (mkVectorModel [("d", "a")]).num_terms := by
  have hstem : npyStem ("w" ++ "/" ++ "x.npy") = some "w/x" := by decide
  refine ⟨by decide, ?_, by decide⟩
  rw [load_vectors, List.foldl_cons, hstem, List.foldl_nil]
  rfl

/-- C8 (witness): the amended theorem applied to a one-entry store,
with the pass-through membership consequence discharged at the loaded
entry. -/
theorem c8_witness :
    load_vectors "w" [("y.npy", [(2 : ℝ)])] =
      ([("y.npy", [(2 : ℝ)])].filterMap fun e =>
        (npyStem ("w" ++ "/" ++ e.1)).map fun stem => (stem, e.2)) ∧
    ("w/y", [(2 : ℝ)]) ∈ load_vectors "w" [("y.npy", [(2 : ℝ)])] ∧
    ∃ f, (f, [(2 : ℝ)]) ∈ [("y.npy", [(2 : ℝ)])] := by
  have hstem : npyStem ("w" ++ "/" ++ "y.npy") = some "w/y" := by decide
  have hload : load_vectors "w" [("y.npy", [(2 : ℝ)])] = [("w/y", [(2 : ℝ)])] := by
    rw [load_vectors, List.foldl_cons, hstem, List.foldl_nil]
    rfl
  have hmem : ("w/y", [(2 : ℝ)]) ∈ load_vectors "w" [("y.npy", [(2 : ℝ)])] := by
    rw [hload]
    exact List.mem_singleton.mpr rfl
  exact ⟨(c8_amended_load_no_dim_check "w" [("y.npy", [(2 : ℝ)])]).1, hmem,
    (c8_amended_load_no_dim_check "w" [("y.npy", [(2 : ℝ)])]).2 "w/y" [(2 : ℝ)] hmem⟩

/-! ### Defaultdict state threading lemmas (for the index query path) -/

lemma gather_snd_preserves (ts : List String) :
    ∀ (acc : List String) (idx : Index) (t : String) (l : List String),
      alookup idx t = some l →
      alookup ((ts.foldl
        (fun st t => ((st.1 ++ (ddGet st.2 t).1), (ddGet st.2 t).2)) (acc, idx)).2) t =
        some l := by
  induction ts with
  | nil => intro acc idx t l h; exact h
  | cons t0 tl ih =>
    intro acc idx t l h
    rw [List.foldl_cons]
    apply ih
    show alookup (ddGet idx t0).2 t = some l
    unfold ddGet
    cases h0 : alookup idx t0 with
    | some l0 => exact h
    | none => exact alookup_append_of_some _ h

lemma gather_snd_missing (ts : List String) :
    ∀ (acc : List String) (idx : Index) (t : String),
      alookup idx t = none →
      alookup ((ts.foldl
        (fun st t => ((st.1 ++ (ddGet st.2 t).1), (ddGet st.2 t).2)) (acc, idx)).2) t =
        if t ∈ ts then some [] else none := by
  induction ts with
  | nil =>
    intro acc idx t h
    simpa using h
  | cons t0 tl ih =>
    intro acc idx t h
    rw [List.foldl_cons]
    by_cases ht : t0 = t
    · subst ht
      have hl : alookup (ddGet idx t0).2 t0 = some [] := by
        unfold ddGet
        rw [h]
        exact (alookup_append_of_none _ h).trans (by simp [alookup])
      rw [gather_snd_preserves tl _ _ _ _ hl]
      simp
    · have hl : alookup (ddGet idx t0).2 t = none := by
        unfold ddGet
        cases h0 : alookup idx t0 with
        | some l0 => exact h
        | none =>
          rw [alookup_append_of_none _ h]
          simp [alookup, ht]
      rw [ih _ _ _ hl]
      simp only [List.mem_cons, eq_false (fun hc : t = t0 => ht hc.symm), false_or]

/-- C9 (amended): a query through `find_similar_with_index` preserves
the contents of every existing posting list (no build-time state is
rewritten), but the `defaultdict` read `self.inverted_index[t]`
auto-inserts an empty posting list for each raw query term missing from
the index, so the index is *not* identical after a query containing an
unindexed term.  The vocabulary and frequency tables are untouched (the
model's query path never writes them). -/
theorem c9_amended_index_autoviv (idx : Index) (vectors : List (String × List ℝ))
    (query : String) (q_v : List ℝ) (t : String) :
    (∀ l, alookup idx t = some l →
      alookup (find_similar_with_index idx vectors query q_v).2 t = some l) ∧
    (alookup idx t = none →
      alookup (find_similar_with_index idx vectors query q_v).2 t =
        if t ∈ queryTerms query then some [] else none) := by
  constructor
  · intro l h
    show alookup ((queryTerms query).foldl
      (fun st t => ((st.1 ++ (ddGet st.2 t).1), (ddGet st.2 t).2)) ([], idx)).2 t = some l
    exact gather_snd_preserves _ _ _ _ _ h
  · intro h
    show alookup ((queryTerms query).foldl
      (fun st t => ((st.1 ++ (ddGet st.2 t).1), (ddGet st.2 t).2)) ([], idx)).2 t = _
    exact gather_snd_missing _ _ _ _ h

/-- C9 (counterexample): the claim says the inverted index is identical
before and after any query.  Querying the raw text `"qxy"` against an
empty index leaves the index holding a new empty posting list for
`"qxy"` — the defaultdict read mutated it. -/
theorem c9_counterexample :
    (find_similar_with_index [] [] "qxy" []).2 = [("qxy", [])] ∧
    (find_similar_with_index [] [] "qxy" []).2 ≠ ([] : Index) := by
  have h : (find_similar_with_index [] [] "qxy" []).2 = [("qxy", [])] := by
    show ((queryTerms "qxy").foldl
      (fun st t => ((st.1 ++ (ddGet st.2 t).1), (ddGet st.2 t).2)) ([], [])).2 = _
    decide
  exact ⟨h, by rw [h]; simp⟩

/-- C9 (witness): the amended theorem applied to the index
`[("a", ["d"])]` and the raw query `"a zz"` — the existing posting list
of `"a"` is preserved, and the missing term `"zz"` is auto-inserted
with an empty posting list. -/
theorem c9_witness :
    alookup [("a", ["d"])] "a" = some ["d"] ∧
    alookup ((find_similar_with_index [("a", ["d"])] [] "a zz" []).2) "a" = some ["d"] ∧
    alookup ([("a", ["d"])] : Index) "zz" = none ∧
    alookup ((find_similar_with_index [("a", ["d"])] [] "a zz" []).2) "zz" =
      (if "zz" ∈ queryTerms "a zz" then some [] else none) :=
  ⟨by decide,
    (c9_amended_index_autoviv [("a", ["d"])] [] "a zz" [] "a").1 ["d"] (by decide),
    by decide,
    (c9_amended_index_autoviv [("a", ["d"])] [] "a zz" [] "zz").2 (by decide)⟩

/-! ### Vocabulary layout lemmas -/

lemma insertSorted_perm (x : String) (l : List String) :
    (insertSorted x l).Perm (x :: l) := by
  induction l with
  | nil => exact List.Perm.refl _
  | cons y ys ih =>
    unfold insertSorted
    by_cases h : lexLt x.data y.data
    · rw [if_pos h]
    · rw [if_neg h]
      exact (ih.cons y).trans (List.Perm.swap x y ys)

lemma sortStrings_perm (l : List String) : (sortStrings l).Perm l := by
  induction l with
  | nil => exact List.Perm.refl _
  | cons x xs ih =>
    unfold sortStrings
    exact (insertSorted_perm x (sortStrings xs)).trans (ih.cons x)

lemma vocabWords_nodup (corpus : List (String × String)) : (vocabWords corpus).Nodup := by
  unfold vocabWords
  exact (List.nodup_dedup _).perm (sortStrings_perm _).symm

lemma mem_zip_range {l : List String} {t : String} {p : ℕ}
    (h : (t, p) ∈ l.zip (List.range l.length)) : l[p]? = some t := by
  induction l generalizing p with
  | nil => simp at h
  | cons a tl ih =>
    rw [List.length_cons, List.range_succ_eq_map, List.zip_cons_cons] at h
    rcases List.mem_cons.mp h with h | h
    · rw [Prod.mk.injEq] at h
      obtain ⟨rfl, rfl⟩ := h
      simp
    · rw [List.zip_map_right] at h
      obtain ⟨⟨t', q⟩, hm, he⟩ := List.mem_map.mp h
      cases he
      simp only [List.getElem?_cons_succ]
      exact ih hm

lemma vmList_keys (corpus : List (String × String)) :
    (mkVectorModel corpus).vmList.map Prod.fst = vocabWords corpus := by
  show (mkVmList corpus).map Prod.fst = vocabWords corpus
  unfold mkVmList
  exact List.map_fst_zip _ _ (by rw [List.length_range])

lemma vmList_keys_nodup (corpus : List (String × String)) :
    ((mkVectorModel corpus).vmList.map Prod.fst).Nodup := by
  rw [vmList_keys]
  exact vocabWords_nodup corpus

lemma vmList_coord_inj (corpus : List (String × String)) {t1 t2 : String} {p : ℕ}
    (h1 : alookup (mkVectorModel corpus).vmList t1 = some p)
    (h2 : alookup (mkVectorModel corpus).vmList t2 = some p) : t1 = t2 := by
  have g1 := mem_zip_range (l := vocabWords corpus) (alookup_mem h1)
  have g2 := mem_zip_range (l := vocabWords corpus) (alookup_mem h2)
  rw [g1] at g2
  exact Option.some.inj g2

/-! ### Lemmas about the query-vectorize loop body -/

lemma qvStep_none (m : VectorModel) (q : List String) (t : String) :
    qvStep m q none t = none := rfl

lemma qvStep_oov (m : VectorModel) (q : List String) {t : String}
    (h : alookup m.vmList t = none) (z : Option (List ℝ)) : qvStep m q z t = z := by
  cases z with
  | none => rfl
  | some wv => simp [qvStep, h]

lemma qvStep_some (m : VectorModel) (q : List String) {t : String} {i : ℕ}
    (h : alookup m.vmList t = some i) (wv : List ℝ) :
    qvStep m q (some wv) t = (m.tf_idf_weight_query t q).map fun x => wv.set i x := by
  simp [qvStep, h]

/-- C10: `query_vectorize` depends only on the multiset of query words:
permuting the query word list leaves the result (including a possible
failure) unchanged.  Distinct vocabulary terms write distinct
coordinates, and each written weight depends only on the term's count
in the query, which permutation preserves. -/
theorem c10_query_vectorize_perm (corpus : List (String × String)) (ws ws' : List String)
    (h : ws.Perm ws') :
    (mkVectorModel corpus).query_vectorize ws = (mkVectorModel corpus).query_vectorize ws' := by
  unfold VectorModel.query_vectorize
  have hw : qvStep (mkVectorModel corpus) ws = qvStep (mkVectorModel corpus) ws' := by
    funext z t
    unfold qvStep VectorModel.tf_idf_weight_query tf_query
    rw [h.count_eq]
  rw [hw]
  apply List.Perm.foldl_eq' h.dedup
  intro x _ y _ z
  by_cases hxy : x = y
  · rw [hxy]
  cases z with
  | none => rw [qvStep_none, qvStep_none, qvStep_none]
  | some wv =>
    cases hx1 : alookup (mkVectorModel corpus).vmList x with
    | none =>
      rw [qvStep_oov _ _ hx1, qvStep_oov _ _ hx1]
    | some i =>
      cases hy1 : alookup (mkVectorModel corpus).vmList y with
      | none =>
        rw [qvStep_oov _ _ hy1, qvStep_oov _ _ hy1]
      | some j =>
        have hij : i ≠ j := fun he => hxy (vmList_coord_inj corpus hx1 (he ▸ hy1))
        rw [qvStep_some _ _ hx1 wv, qvStep_some _ _ hy1 wv]
        cases hqx : (mkVectorModel corpus).tf_idf_weight_query x ws' with
        | none =>
          cases hqy : (mkVectorModel corpus).tf_idf_weight_query y ws' with
          | none => rw [Option.map_none', Option.map_none', qvStep_none, qvStep_none]
          | some b =>
            rw [Option.map_none', Option.map_some', qvStep_none,
              qvStep_some _ _ hx1 (wv.set j b), hqx, Option.map_none']
        | some a =>
          cases hqy : (mkVectorModel corpus).tf_idf_weight_query y ws' with
          | none =>
            rw [Option.map_none', Option.map_some', qvStep_none,
              qvStep_some _ _ hy1 (wv.set i a), hqy, Option.map_none']
          | some b =>
            rw [Option.map_some', Option.map_some',
              qvStep_some _ _ hy1 (wv.set i a), qvStep_some _ _ hx1 (wv.set j b),
              hqx, hqy, Option.map_some', Option.map_some', Option.some.injEq]
            exact List.set_comm a b wv hij

/-- C10 (witness): the theorem applied to the two-word query lists
`["b", "a", "b"]` and `["b", "b", "a"]`, a concrete permutation, over a
one-document corpus. -/
theorem c10_witness :
    (["b", "a", "b"] : List String).Perm ["b", "b", "a"] ∧
    (mkVectorModel [("d", "a b")]).query_vectorize ["b", "a", "b"] =
      (mkVectorModel [("d", "a b")]).query_vectorize ["b", "b", "a"] :=
  ⟨by decide, c10_query_vectorize_perm [("d", "a b")] _ _ (by decide)⟩

/-! ### Inverted-index build lemmas -/

lemma alookup_map_modify (idx : Index) (t f : String) :
    alookup (idx.map fun e => if e.1 = t then (e.1, e.2 ++ [f]) else e) t =
      (alookup idx t).map (· ++ [f]) := by
  induction idx with
  | nil => rfl
  | cons e tl ih =>
    rw [List.map_cons]
    by_cases he : e.1 = t
    · rw [if_pos he]
      simp only [alookup]
      rw [if_pos he, if_pos he, Option.map_some']
    · rw [if_neg he]
      simp only [alookup]
      rw [if_neg he, if_neg he]
      exact ih

lemma alookup_map_modify_ne (idx : Index) (t f t' : String) (hne : t' ≠ t) :
    alookup (idx.map fun e => if e.1 = t then (e.1, e.2 ++ [f]) else e) t' =
      alookup idx t' := by
  induction idx with
  | nil => rfl
  | cons e tl ih =>
    rw [List.map_cons]
    by_cases he : e.1 = t
    · rw [if_pos he]
      simp only [alookup]
      have he2 : ¬e.1 = t' := by
        rw [he]
        exact fun hc => hne hc.symm
      rw [if_neg he2, if_neg he2]
      exact ih
    · rw [if_neg he]
      simp only [alookup]
      by_cases he2 : e.1 = t'
      · rw [if_pos he2, if_pos he2]
      · rw [if_neg he2, if_neg he2]
        exact ih

lemma postingsOf_ddAppend_self (idx : Index) (t f : String) :
    postingsOf (ddAppend idx t f) t = postingsOf idx t ++ [f] := by
  unfold ddAppend
  cases h : alookup idx t with
  | none =>
    unfold postingsOf
    rw [alookup_append_of_none _ h, h]
    simp [alookup]
  | some l =>
    unfold postingsOf
    rw [alookup_map_modify, h]
    rfl

lemma postingsOf_ddAppend_ne (idx : Index) (t f t' : String) (hne : t' ≠ t) :
    postingsOf (ddAppend idx t f) t' = postingsOf idx t' := by
  unfold ddAppend
  cases h : alookup idx t with
  | none =>
    unfold postingsOf
    cases h2 : alookup idx t' with
    | some l2 => rw [alookup_append_of_some _ h2]
    | none =>
      rw [alookup_append_of_none _ h2]
      have hts : ¬t = t' := fun hc => hne hc.symm
      simp [alookup, hts]
  | some l =>
    unfold postingsOf
    rw [alookup_map_modify_ne _ _ _ _ hne]

lemma inner_fold_not_mem (L : List (String × ℕ)) (v : List ℝ) (f : String) :
    ∀ (idx : Index) (t : String), t ∉ L.map Prod.fst →
      postingsOf
        (L.foldl (fun idx tp => if 0 < vecGet v tp.2 then ddAppend idx tp.1 f else idx) idx)
        t = postingsOf idx t := by
  induction L with
  | nil => intro idx t _; rfl
  | cons tp tl ih =>
    intro idx t h
    simp only [List.map_cons, List.mem_cons, not_or] at h
    rw [List.foldl_cons, ih _ _ h.2]
    by_cases hpos : 0 < vecGet v tp.2
    · rw [if_pos hpos, postingsOf_ddAppend_ne _ _ _ _ h.1]
    · rw [if_neg hpos]

lemma inner_fold_mem (L : List (String × ℕ)) (v : List ℝ) (f : String)
    (hnd : (L.map Prod.fst).Nodup) :
    ∀ (idx : Index) (t : String) (p : ℕ), (t, p) ∈ L →
      postingsOf
        (L.foldl (fun idx tp => if 0 < vecGet v tp.2 then ddAppend idx tp.1 f else idx) idx)
        t = postingsOf idx t ++ (if 0 < vecGet v p then [f] else []) := by
  induction L with
  | nil => intro idx t p h; simp at h
  | cons tp tl ih =>
    obtain ⟨t0, p0⟩ := tp
    intro idx t p h
    simp only [List.map_cons, List.nodup_cons] at hnd
    rw [List.foldl_cons]
    rcases List.mem_cons.mp h with h | h
    · rw [Prod.mk.injEq] at h
      obtain ⟨rfl, rfl⟩ := h
      rw [inner_fold_not_mem tl v f _ t hnd.1]
      by_cases hpos : 0 < vecGet v p
      · rw [if_pos hpos, if_pos hpos, postingsOf_ddAppend_self]
      · rw [if_neg hpos, if_neg hpos, List.append_nil]
    · have hne : t ≠ t0 :=
        fun hc => hnd.1 (hc ▸ List.mem_map.mpr ⟨(t, p), h, rfl⟩)
      rw [ih hnd.2 _ _ _ h]
      by_cases hpos : 0 < vecGet v p0
      · rw [if_pos hpos, postingsOf_ddAppend_ne _ _ _ _ hne]
      · rw [if_neg hpos]

lemma create_idx_mem (m : VectorModel) (hvm : (m.vmList.map Prod.fst).Nodup)
    {t : String} {p : ℕ} (hm : (t, p) ∈ m.vmList) (vectors : List (String × List ℝ)) :
    ∀ (idx0 : Index) (d : String),
      d ∈ postingsOf (create_inverted_index m vectors idx0) t ↔
        d ∈ postingsOf idx0 t ∨ ∃ v, (d, v) ∈ vectors ∧ 0 < vecGet v p := by
  induction vectors with
  | nil =>
    intro idx0 d
    unfold create_inverted_index
    simp
  | cons e tl ih =>
    obtain ⟨f0, v0⟩ := e
    intro idx0 d
    unfold create_inverted_index at ih ⊢
    rw [List.foldl_cons, ih]
    have hinner := inner_fold_mem m.vmList v0 f0 hvm idx0 t p hm
    rw [hinner]
    by_cases hpos : 0 < vecGet v0 p
    · rw [if_pos hpos]
      constructor
      · rintro (hd | hd)
        · rcases List.mem_append.mp hd with hd | hd
          · exact Or.inl hd
          · rcases List.mem_singleton.mp hd with rfl
            exact Or.inr ⟨v0, List.mem_cons_self _ _, hpos⟩
        · obtain ⟨v, hv, hvp⟩ := hd
          exact Or.inr ⟨v, List.mem_cons_of_mem _ hv, hvp⟩
      · rintro (hd | ⟨v, hv, hvp⟩)
        · exact Or.inl (List.mem_append.mpr (Or.inl hd))
        · rcases List.mem_cons.mp hv with hv | hv
          · rw [Prod.mk.injEq] at hv
            exact Or.inl (List.mem_append.mpr (Or.inr (by simp [hv.1])))
          · exact Or.inr ⟨v, hv, hvp⟩
    · rw [if_neg hpos, List.append_nil]
      constructor
      · rintro (hd | ⟨v, hv, hvp⟩)
        · exact Or.inl hd
        · exact Or.inr ⟨v, List.mem_cons_of_mem _ hv, hvp⟩
      · rintro (hd | ⟨v, hv, hvp⟩)
        · exact Or.inl hd
        · rcases List.mem_cons.mp hv with hv | hv
          · rw [Prod.mk.injEq] at hv
            exact absurd (hv.2 ▸ hvp) hpos
          · exact Or.inr ⟨v, hv, hvp⟩

/-- C5: inverted-index soundness.  Starting from the empty index that
`__init__` leaves behind, after `create_inverted_index(vectors)` a
document `d` appears in the posting list of a vocabulary term `t` if
and only if the stored vector for `d` is strictly positive at `t`'s
coordinate.  (The vectors mapping has distinct keys, as a Python dict
does, and store-shaped vector lengths.) -/
theorem c5_inverted_index_sound (corpus : List (String × String))
    (vectors : List (String × List ℝ))
    (hnd : (vectors.map Prod.fst).Nodup)
    (_hlen : ∀ e ∈ vectors, (e.2 : List ℝ).length = (mkVectorModel corpus).num_terms)
    (t : String) (p : ℕ)
    (hm : alookup (mkVectorModel corpus).vmList t = some p)
    (d : String) (v : List ℝ) (hdv : (d, v) ∈ vectors) :
    d ∈ postingsOf (create_inverted_index (mkVectorModel corpus) vectors []) t ↔
      0 < vecGet v p := by
  rw [create_idx_mem (mkVectorModel corpus) (vmList_keys_nodup corpus) (alookup_mem hm)
    vectors [] d]
  have hempty : postingsOf ([] : Index) t = [] := rfl
  rw [hempty]
  simp only [List.not_mem_nil, false_or]
  constructor
  · rintro ⟨v', hv', hvp⟩
    rwa [nodup_keys_val_unique hnd hdv hv']
  · intro hp
    exact ⟨v, hdv, hp⟩

/-- C5 (witness): the soundness theorem applied to the one-document
corpus `"a b"` with stored vector `[1, 0]`: the document is posted
under `"a"` (weight `1 > 0` at coordinate `0`). -/
theorem c5_witness :
    (([("d", [(1 : ℝ), 0])].map Prod.fst).Nodup) ∧
    (∀ e ∈ [("d", [(1 : ℝ), 0])], (e.2 : List ℝ).length =
      (mkVectorModel [("d", "a b")]).num_terms) ∧
    alookup (mkVectorModel [("d", "a b")]).vmList "a" = some 0 ∧
    ("d", [(1 : ℝ), 0]) ∈ [("d", [(1 : ℝ), 0])] ∧
    ("d" ∈ postingsOf
        (create_inverted_index (mkVectorModel [("d", "a b")]) [("d", [(1 : ℝ), 0])] []) "a" ↔
      0 < vecGet [(1 : ℝ), 0] 0) := by
  have hnd : (([("d", [(1 : ℝ), 0])].map Prod.fst).Nodup) := by simp
  have hlen : ∀ e ∈ [("d", [(1 : ℝ), 0])], (e.2 : List ℝ).length =
      (mkVectorModel [("d", "a b")]).num_terms := by
    intro e he
    rcases List.mem_singleton.mp he with rfl
    decide
  have hm : alookup (mkVectorModel [("d", "a b")]).vmList "a" = some 0 := by decide
  have hdv : ("d", [(1 : ℝ), 0]) ∈ [("d", [(1 : ℝ), 0])] := List.mem_singleton.mpr rfl
  exact ⟨hnd, hlen, hm, hdv,
    c5_inverted_index_sound [("d", "a b")] _ hnd hlen "a" 0 hm "d" _ hdv⟩

/-! ### Well-formedness of the built tables (used for C2) -/

lemma alookup_bump_map (l : List (String × ℕ)) (t : String) (t' : String) :
    alookup (l.map fun e => if e.1 = t then (e.1, e.2 + 1) else e) t' =
      if t' = t then (alookup l t').map (· + 1) else alookup l t' := by
  induction l with
  | nil => by_cases h : t' = t <;> simp [alookup, h]
  | cons e tl ih =>
    rw [List.map_cons]
    by_cases he : e.1 = t
    · rw [if_pos he]
      by_cases ht : t' = t
      · simp only [alookup, if_pos ht]
        rw [if_pos (he.trans ht.symm), if_pos (he.trans ht.symm), Option.map_some']
      · simp only [alookup, if_neg ht]
        have he2 : ¬e.1 = t' := fun hc => ht ((hc.symm.trans he))
        rw [if_neg he2, if_neg he2]
        rw [ih, if_neg ht]
    · rw [if_neg he]
      simp only [alookup]
      by_cases he2 : e.1 = t'
      · have ht : ¬t' = t := fun hc => he (he2.trans hc)
        rw [if_pos he2, if_pos he2, if_neg ht]
      · rw [if_neg he2, if_neg he2, ih]

lemma bumpDf_isSome {dfs : List (String × ℕ)} {t : String} (t' : String)
    (h : ∃ n, alookup dfs t = some n) : ∃ n, alookup (bumpDf dfs t') t = some n := by
  obtain ⟨n, hn⟩ := h
  cases h2 : alookup dfs t' with
  | some m =>
    have hb : bumpDf dfs t' = dfs.map fun e => if e.1 = t' then (e.1, e.2 + 1) else e := by
      unfold bumpDf
      rw [h2]
    rw [hb, alookup_bump_map]
    by_cases ht : t = t'
    · rw [if_pos ht, hn]
      exact ⟨n + 1, rfl⟩
    · rw [if_neg ht]
      exact ⟨n, hn⟩
  | none =>
    have hb : bumpDf dfs t' = dfs ++ [(t', 1)] := by
      unfold bumpDf
      rw [h2]
    rw [hb]
    by_cases ht : t = t'
    · rw [ht] at hn
      rw [hn] at h2
      exact Option.noConfusion h2
    · exact ⟨n, alookup_append_of_some _ hn⟩

lemma bumpDf_self (dfs : List (String × ℕ)) (t : String) :
    ∃ n, alookup (bumpDf dfs t) t = some n := by
  cases h2 : alookup dfs t with
  | some m =>
    have hb : bumpDf dfs t = dfs.map fun e => if e.1 = t then (e.1, e.2 + 1) else e := by
      unfold bumpDf
      rw [h2]
    rw [hb, alookup_bump_map, if_pos rfl, h2]
    exact ⟨m + 1, rfl⟩
  | none =>
    have hb : bumpDf dfs t = dfs ++ [(t, 1)] := by
      unfold bumpDf
      rw [h2]
    refine ⟨1, ?_⟩
    rw [hb, alookup_append_of_none _ h2]
    simp [alookup]

lemma dfs_inner_fold_isSome (ts : List String) :
    ∀ (dfs : List (String × ℕ)) (t : String),
      ((∃ n, alookup dfs t = some n) ∨ t ∈ ts) →
      ∃ n, alookup (ts.foldl bumpDf dfs) t = some n := by
  induction ts with
  | nil =>
    intro dfs t h
    rcases h with h | h
    · exact h
    · simp at h
  | cons t0 tl ih =>
    intro dfs t h
    rw [List.foldl_cons]
    apply ih
    rcases h with h | h
    · exact Or.inl (bumpDf_isSome t0 h)
    · rcases List.mem_cons.mp h with rfl | h
      · exact Or.inl (bumpDf_self dfs t)
      · exact Or.inr h

lemma dfs_outer_fold_isSome (corpus : List (String × String)) :
    ∀ (acc : List (String × ℕ)) (tk : String),
      ((∃ n, alookup acc tk = some n) ∨ ∃ dl ∈ corpus, tk ∈ docTerms dl.2) →
      ∃ n, alookup
        (corpus.foldl (fun dfs d => (docTerms d.2).foldl bumpDf dfs) acc) tk = some n := by
  induction corpus with
  | nil =>
    intro acc tk h
    rcases h with h | h
    · exact h
    · simp at h
  | cons d tl ih =>
    intro acc tk h
    rw [List.foldl_cons]
    apply ih
    rcases h with h | ⟨dl, hdl, htk⟩
    · exact Or.inl (dfs_inner_fold_isSome _ _ _ (Or.inl h))
    · rcases List.mem_cons.mp hdl with rfl | hdl
      · exact Or.inl (dfs_inner_fold_isSome _ _ _ (Or.inr htk))
      · exact Or.inr ⟨dl, hdl, htk⟩

lemma dfs_covers {corpus : List (String × String)} {doc line : String}
    (hmem : (doc, line) ∈ corpus) {tk : String} (htk : tk ∈ docTerms line) :
    ∃ n, alookup (dfsOf corpus) tk = some n := by
  unfold dfsOf
  exact dfs_outer_fold_isSome corpus [] tk (Or.inr ⟨(doc, line), hmem, htk⟩)

lemma token_in_vocab {corpus : List (String × String)} {doc line : String}
    (hmem : (doc, line) ∈ corpus) {tk : String} (htk : tk ∈ pytokens line) :
    tk ∈ vocabWords corpus := by
  unfold vocabWords
  apply (sortStrings_perm _).mem_iff.mpr
  rw [List.mem_dedup, List.mem_flatten]
  exact ⟨pytokens line, List.mem_map.mpr ⟨(doc, line), hmem, rfl⟩, htk⟩

lemma vocab_lookup_some {corpus : List (String × String)} {tk : String}
    (h : tk ∈ vocabWords corpus) :
    ∃ i, alookup (mkVectorModel corpus).vmList tk = some i :=
  alookup_isSome_of_mem_keys (by rw [vmList_keys]; exact h)

lemma tfs_keys (corpus : List (String × String)) :
    (tfsOf corpus).map Prod.fst = corpus.map Prod.fst := by
  unfold tfsOf
  rw [List.map_map]
  rfl

lemma tfs_lookup {corpus : List (String × String)} (hnd : (corpus.map Prod.fst).Nodup)
    {doc line : String} (hmem : (doc, line) ∈ corpus) :
    alookup (tfsOf corpus) doc =
      some ((docTerms line).map fun tk => (tk, pyCount line tk)) := by
  apply mem_alookup
  · rw [tfs_keys]
    exact hnd
  · exact List.mem_map.mpr ⟨(doc, line), hmem, rfl⟩

lemma tf_idf_weight_some {corpus : List (String × String)}
    (hnd : (corpus.map Prod.fst).Nodup) {doc line : String} (hmem : (doc, line) ∈ corpus)
    {tk : String} (htk : tk ∈ docTerms line) :
    ∃ x, (mkVectorModel corpus).tf_idf_weight tk doc = some x := by
  have htfs := tfs_lookup hnd hmem
  have htbl : alookup ((docTerms line).map fun t => (t, pyCount line t)) tk =
      some (pyCount line tk) := by
    apply mem_alookup
    · have hkeys : (((docTerms line).map fun t => (t, pyCount line t)).map Prod.fst) =
          docTerms line := by
        rw [List.map_map]
        exact List.map_id _
      rw [hkeys]
      exact List.nodup_dedup _
    · exact List.mem_map.mpr ⟨tk, htk, rfl⟩
  obtain ⟨n, hn⟩ := dfs_covers hmem htk
  refine ⟨(pyCount line tk : ℝ) * Real.log ((corpus.length : ℝ) / (n : ℝ)), ?_⟩
  have h1 : (mkVectorModel corpus).tf tk doc = some (pyCount line tk) := by
    show (alookup (tfsOf corpus) doc).bind (fun tbl => alookup tbl tk) = _
    rw [htfs]
    exact htbl
  have h2 : (mkVectorModel corpus).idf tk =
      some (Real.log ((corpus.length : ℝ) / (n : ℝ))) := by
    unfold VectorModel.idf VectorModel.df
    have hd : alookup (mkVectorModel corpus).dfs tk = some n := hn
    rw [hd]
    rfl
  unfold VectorModel.tf_idf_weight
  rw [h1, h2]
  rfl

lemma getD_set_ne (l : List ℝ) {i p : ℕ} (x : ℝ) (h : i ≠ p) :
    (l.set i x).getD p 0 = l.getD p 0 := by
  rw [List.getD_eq_getElem?_getD, List.getD_eq_getElem?_getD, List.getElem?_set_ne h]

lemma getD_replicate_zero (n p : ℕ) : (List.replicate n (0 : ℝ)).getD p 0 = 0 := by
  rw [List.getD_eq_getElem?_getD, List.getElem?_replicate]
  by_cases h : p < n
  · rw [if_pos h]
    rfl
  · rw [if_neg h]
    rfl

lemma wfd_fold (m : VectorModel) (doc : String) (p : ℕ) (ts : List String)
    (hres : ∀ tk ∈ ts, (∃ i, alookup m.vmList tk = some i ∧ i ≠ p) ∧
      ∃ x, m.tf_idf_weight tk doc = some x) :
    ∀ wv : List ℝ, wv.getD p 0 = 0 →
      ∃ w, ts.foldl
          (fun w t =>
            w.bind fun wv =>
              (alookup m.vmList t).bind fun i =>
                (m.tf_idf_weight t doc).map fun x => wv.set i x)
          (some wv) = some w ∧
        w.getD p 0 = 0 := by
  induction ts with
  | nil =>
    intro wv h
    exact ⟨wv, rfl, h⟩
  | cons t0 tl ih =>
    intro wv h
    obtain ⟨⟨i, hi, hip⟩, x, hx⟩ := hres t0 (List.mem_cons_self _ _)
    rw [List.foldl_cons]
    have hstep : ((some wv).bind fun wv =>
        (alookup m.vmList t0).bind fun i =>
          (m.tf_idf_weight t0 doc).map fun x => wv.set i x) = some (wv.set i x) := by
      rw [Option.some_bind, hi, Option.some_bind, hx, Option.map_some']
    rw [hstep]
    apply ih (fun tk htk => hres tk (List.mem_cons_of_mem _ htk))
    rw [getD_set_ne _ x hip]
    exact h

/-- C2 (counterexample): the claim says `tf_idf_weight(term, doc_path)`
returns `0` (rather than failing) when the term has no occurrence in
the document.  For the two-document corpus where `"bbb"` occurs only in
`d2`, calling `tf_idf_weight("bbb", "d1")` raises `KeyError` inside
`tf` (modelled `none`); it does not return `0`. -/
theorem c2_counterexample :
    (mkVectorModel [("d1", "aaa"), ("d2", "bbb")]).tf_idf_weight "bbb" "d1" = none ∧
    (mkVectorModel [("d1", "aaa"), ("d2", "bbb")]).tf_idf_weight "bbb" "d1" ≠ some 0 := by
  have h : (mkVectorModel [("d1", "aaa"), ("d2", "bbb")]).tf "bbb" "d1" = none := by decide
  constructor
  · unfold VectorModel.tf_idf_weight
    rw [h]
    rfl
  · unfold VectorModel.tf_idf_weight
    rw [h]
    simp

/-- C2 (amended): for a term with no occurrence recorded for a
document, `tf_idf_weight` fails with a `KeyError` (modelled `none`)
instead of returning `0`; the weight-is-zero property holds at the
vector level instead: `weights_for_doc` succeeds on every corpus
document and leaves the coordinate of every term absent from the
document at its `np.zeros` initial value `0`. -/
theorem c2_amended_weight_absent (corpus : List (String × String))
    (hnd : (corpus.map Prod.fst).Nodup)
    (doc line : String) (hmem : (doc, line) ∈ corpus)
    (t : String) (habs : t ∉ pytokens line) :
    (mkVectorModel corpus).tf_idf_weight t doc = none ∧
    ∀ p, alookup (mkVectorModel corpus).vmList t = some p →
      ∃ w, (mkVectorModel corpus).weights_for_doc doc = some w ∧ w.getD p 0 = 0 := by
  have htfs := tfs_lookup hnd hmem
  have habsd : t ∉ docTerms line := fun hc => habs (List.mem_dedup.mp hc)
  constructor
  · have htbl : alookup ((docTerms line).map fun tk => (tk, pyCount line tk)) t = none := by
      apply alookup_eq_none
      rw [List.map_map]
      intro hc
      exact habsd (by simpa using hc)
    have h1 : (mkVectorModel corpus).tf t doc = none := by
      show (alookup (tfsOf corpus) doc).bind (fun tbl => alookup tbl t) = _
      rw [htfs, Option.some_bind, htbl]
    unfold VectorModel.tf_idf_weight
    rw [h1]
    rfl
  · intro p hp
    have hline : alookup (mkVectorModel corpus).processed doc = some line :=
      mem_alookup hnd hmem
    have hres : ∀ tk ∈ docTerms line,
        (∃ i, alookup (mkVectorModel corpus).vmList tk = some i ∧ i ≠ p) ∧
        ∃ x, (mkVectorModel corpus).tf_idf_weight tk doc = some x := by
      intro tk htk
      refine ⟨?_, tf_idf_weight_some hnd hmem htk⟩
      obtain ⟨i, hi⟩ := vocab_lookup_some (token_in_vocab hmem (List.mem_dedup.mp htk))
      refine ⟨i, hi, fun hip => ?_⟩
      exact habsd ((vmList_coord_inj corpus hi (hip ▸ hp)) ▸ htk)
    obtain ⟨w, hw, hwp⟩ := wfd_fold (mkVectorModel corpus) doc p (docTerms line) hres
      (List.replicate (mkVectorModel corpus).num_terms 0)
      (getD_replicate_zero _ p)
    refine ⟨w, ?_, hwp⟩
    unfold VectorModel.weights_for_doc
    rw [hline, Option.some_bind]
    exact hw

/-- C2 (witness): the amended theorem applied to the two-document
corpus where `"bbb"` does not occur in `d1`: the direct weight call
fails, and the stored vector of `d1` holds `0` at `"bbb"`'s
coordinate. -/
theorem c2_witness :
    ((([("d1", "aaa"), ("d2", "bbb")] : List (String × String)).map Prod.fst).Nodup) ∧
    ("d1", "aaa") ∈ [("d1", "aaa"), ("d2", "bbb")] ∧
    ("bbb" ∉ pytokens "aaa") ∧
    (mkVectorModel [("d1", "aaa"), ("d2", "bbb")]).tf_idf_weight "bbb" "d1" = none ∧
    ∀ p, alookup (mkVectorModel [("d1", "aaa"), ("d2", "bbb")]).vmList "bbb" = some p →
      ∃ w, (mkVectorModel [("d1", "aaa"), ("d2", "bbb")]).weights_for_doc "d1" = some w ∧
        w.getD p 0 = 0 := by
  have h1 : ((([("d1", "aaa"), ("d2", "bbb")] : List (String × String)).map
      Prod.fst).Nodup) := by decide
  have h2 : ("d1", "aaa") ∈ [("d1", "aaa"), ("d2", "bbb")] := by decide
  have h3 : ("bbb" ∉ pytokens "aaa") := by decide
  have hall := c2_amended_weight_absent [("d1", "aaa"), ("d2", "bbb")] h1 "d1" "aaa" h2
    "bbb" h3
  exact ⟨h1, h2, h3, hall.1, hall.2⟩

/-! ### Sorting lemmas for the ranking paths -/

lemma insertD_perm (x : Option ℝ × String) (l : List (Option ℝ × String)) :
    (insertD x l).Perm (x :: l) := by
  induction l with
  | nil => exact List.Perm.refl _
  | cons y ys ih =>
    unfold insertD
    by_cases h : pyGt x.1 y.1
    · rw [if_pos h]
    · rw [if_neg h]
      exact (ih.cons y).trans (List.Perm.swap x y ys)

lemma sortD_foldl_perm (l : List (Option ℝ × String)) :
    ∀ acc, (l.foldl (fun acc x => insertD x acc) acc).Perm (l ++ acc) := by
  induction l with
  | nil => intro acc; exact List.Perm.refl _
  | cons x xs ih =>
    intro acc
    rw [List.foldl_cons]
    refine (ih (insertD x acc)).trans ?_
    refine (List.Perm.append_left xs (insertD_perm x acc)).trans ?_
    exact List.perm_middle

lemma sortD_perm (l : List (Option ℝ × String)) : (sortByScoreDesc l).Perm l := by
  unfold sortByScoreDesc
  refine (sortD_foldl_perm l []).trans ?_
  rw [List.append_nil]

lemma scoreGe_trans {a b c : Option ℝ} (h1 : scoreGe a b) (h2 : scoreGe b c) :
    scoreGe a c := by
  obtain ⟨x, y, hx, hy, hyx⟩ := h1
  obtain ⟨y2, z, hy2, hz, hzy⟩ := h2
  rw [hy2] at hy
  obtain rfl := Option.some.inj hy
  exact ⟨x, z, hx, hz, hzy.trans hyx⟩

lemma insertD_sorted (x : Option ℝ × String) (l : List (Option ℝ × String))
    (hx : (x.1).isSome) (hl : ∀ p ∈ l, (p.1).isSome)
    (hs : l.Pairwise fun a b => scoreGe a.1 b.1) :
    (insertD x l).Pairwise fun a b => scoreGe a.1 b.1 := by
  induction l with
  | nil => exact List.pairwise_singleton _ x
  | cons y ys ih =>
    obtain ⟨ay, hay⟩ := Option.isSome_iff_exists.mp (hl y (List.mem_cons_self _ _))
    obtain ⟨ax, hax⟩ := Option.isSome_iff_exists.mp hx
    rw [List.pairwise_cons] at hs
    unfold insertD
    by_cases h : pyGt x.1 y.1
    · rw [if_pos h]
      obtain ⟨a, b, ha, hb, hba⟩ := h
      refine List.Pairwise.cons ?_ (List.Pairwise.cons hs.1 hs.2)
      intro z hz
      rcases List.mem_cons.mp hz with rfl | hz
      · exact ⟨a, b, ha, hb, le_of_lt hba⟩
      · exact scoreGe_trans ⟨a, b, ha, hb, le_of_lt hba⟩ (hs.1 z hz)
    · rw [if_neg h]
      have hyx : scoreGe y.1 x.1 := by
        refine ⟨ay, ax, hay, hax, ?_⟩
        by_contra hlt
        exact h ⟨ax, ay, hax, hay, lt_of_not_le hlt⟩
      refine List.Pairwise.cons ?_ (ih (fun p hp => hl p (List.mem_cons_of_mem _ hp)) hs.2)
      intro z hz
      rcases (insertD_perm x ys).mem_iff.mp hz with hz2
      rcases List.mem_cons.mp hz2 with rfl | hz2
      · exact hyx
      · exact hs.1 z hz2

lemma sortD_sorted (l : List (Option ℝ × String)) (hall : ∀ p ∈ l, (p.1).isSome) :
    (sortByScoreDesc l).Pairwise fun a b => scoreGe a.1 b.1 := by
  unfold sortByScoreDesc
  have haux : ∀ (acc : List (Option ℝ × String)),
      (∀ p ∈ acc, (p.1).isSome) →
      acc.Pairwise (fun a b => scoreGe a.1 b.1) →
      ∀ (sub : List (Option ℝ × String)), (∀ p ∈ sub, (p.1).isSome) →
      (sub.foldl (fun acc x => insertD x acc) acc).Pairwise fun a b => scoreGe a.1 b.1 := by
    intro acc hacc hsort sub
    induction sub generalizing acc with
    | nil => intro _; exact hsort
    | cons x xs ih =>
      intro hsub
      rw [List.foldl_cons]
      refine ih (insertD x acc) ?_ ?_ (fun p hp => hsub p (List.mem_cons_of_mem _ hp))
      · intro p hp
        rcases (insertD_perm x acc).mem_iff.mp hp with hp2
        rcases List.mem_cons.mp hp2 with rfl | hp2
        · exact hsub p (List.mem_cons_self _ _)
        · exact hacc p hp2
      · exact insertD_sorted x acc (hsub x (List.mem_cons_self _ _)) hacc hsort
  exact haux [] (by simp) List.Pairwise.nil l hall

open Classical in
lemma find_similar_scored (vectors : List (String × List ℝ)) (q_v : List ℝ) :
    ∀ acc, vectors.foldl
        (fun acc e =>
          let r := cosine_similarity e.2 q_v
          if r ≠ some 0 then acc ++ [(r, e.1)] else acc)
        acc =
      acc ++ vectors.filterMap fun e =>
        if cosine_similarity e.2 q_v ≠ some 0 then some (cosine_similarity e.2 q_v, e.1)
        else none := by
  induction vectors with
  | nil => intro acc; simp
  | cons e tl ih =>
    intro acc
    simp only [List.foldl_cons, List.filterMap_cons]
    by_cases h : cosine_similarity e.2 q_v ≠ some 0
    · rw [if_pos h, if_pos h, ih, List.append_assoc, List.singleton_append]
    · rw [if_neg h, if_neg h, ih]

open Classical in
lemma mem_scored {vectors : List (String × List ℝ)} {q_v : List ℝ}
    {p : Option ℝ × String} :
    p ∈ (vectors.filterMap fun e =>
        if cosine_similarity e.2 q_v ≠ some 0 then some (cosine_similarity e.2 q_v, e.1)
        else none) ↔
      ∃ e ∈ vectors, cosine_similarity e.2 q_v ≠ some 0 ∧
        p = (cosine_similarity e.2 q_v, e.1) := by
  rw [List.mem_filterMap]
  constructor
  · rintro ⟨e, he, hf⟩
    by_cases h : cosine_similarity e.2 q_v ≠ some 0
    · rw [if_pos h] at hf
      exact ⟨e, he, h, (Option.some.inj hf).symm⟩
    · rw [if_neg h] at hf
      exact Option.noConfusion hf
  · rintro ⟨e, he, h, rfl⟩
    exact ⟨e, he, by rw [if_pos h]⟩

open Classical in
lemma scored_eq_map_filter (vectors : List (String × List ℝ)) (q_v : List ℝ) :
    (vectors.filterMap fun e =>
        if cosine_similarity e.2 q_v ≠ some 0 then some (cosine_similarity e.2 q_v, e.1)
        else none) =
      (vectors.filter fun e => decide (cosine_similarity e.2 q_v ≠ some 0)).map fun e =>
        (cosine_similarity e.2 q_v, e.1) := by
  induction vectors with
  | nil => rfl
  | cons e tl ih =>
    rw [List.filterMap_cons, List.filter_cons]
    by_cases h : cosine_similarity e.2 q_v ≠ some 0
    · rw [if_pos h, if_pos (decide_eq_true h), List.map_cons, ih]
    · rw [if_neg h, if_neg (by rw [decide_eq_false h]; exact Bool.false_ne_true), ih]

lemma dot_self_ne_zero_of_exists {v : List ℝ} (h : ∃ x ∈ v, x ≠ 0) : dot v v ≠ 0 := by
  intro hc
  obtain ⟨x, hx, hxe⟩ := h
  exact hxe ((dot_self_eq_zero_iff v).mp hc x hx)

open Classical in
/-- C6 (amended): provided every stored vector has nonzero norm (so no
similarity is NaN — see the counterexample for why this hypothesis is
forced), `find_similar` on a nonzero query vector returns at most `k`
names, sorted by non-increasing similarity, every returned document has
a well-defined nonzero similarity, and when at most `k` documents have
nonzero similarity every such document is returned. -/
theorem c6_amended_find_similar (vectors : List (String × List ℝ)) (q_v : List ℝ) (k : ℕ)
    (hq : ∃ x ∈ q_v, x ≠ 0)
    (hnz : ∀ e ∈ vectors, dot e.2 e.2 ≠ 0)
    (hnd : (vectors.map Prod.fst).Nodup) :
    (find_similar vectors q_v k).length ≤ k ∧
    (find_similar vectors q_v k).Pairwise
      (fun f g => scoreGe (simOf vectors q_v f) (simOf vectors q_v g)) ∧
    (∀ f ∈ find_similar vectors q_v k,
      simOf vectors q_v f ≠ some 0 ∧ simOf vectors q_v f ≠ none) ∧
    (∀ e ∈ vectors, cosine_similarity e.2 q_v ≠ some 0 →
      (vectors.filter fun e' => decide (cosine_similarity e'.2 q_v ≠ some 0)).length ≤ k →
      e.1 ∈ find_similar vectors q_v k) := by
  have hq0 : ¬ ∀ x ∈ q_v, x = 0 := by
    obtain ⟨x, hx, hxe⟩ := hq
    exact fun h => hxe (h x hx)
  have hfs : find_similar vectors q_v k =
      (pyNlargest k (vectors.filterMap fun e =>
        if cosine_similarity e.2 q_v ≠ some 0 then some (cosine_similarity e.2 q_v, e.1)
        else none)).map Prod.snd := by
    rw [find_similar, if_neg hq0, find_similar_scored vectors q_v [], List.nil_append]
  set scored := vectors.filterMap fun e =>
      if cosine_similarity e.2 q_v ≠ some 0 then some (cosine_similarity e.2 q_v, e.1)
      else none with hscored
  have hmem : ∀ p ∈ scored, ∃ e ∈ vectors, cosine_similarity e.2 q_v ≠ some 0 ∧
      p = (cosine_similarity e.2 q_v, e.1) := fun p hp => mem_scored.mp hp
  have hcos_ne_none : ∀ e ∈ vectors, cosine_similarity e.2 q_v ≠ none := by
    intro e he hc
    rcases (cosine_eq_none_iff e.2 q_v).mp hc with h | h
    · exact hnz e he h
    · exact dot_self_ne_zero_of_exists hq h
  have hsome : ∀ p ∈ scored, (p.1).isSome := by
    intro p hp
    obtain ⟨e, he, hne, rfl⟩ := hmem p hp
    cases hcs : cosine_similarity e.2 q_v with
    | none => exact absurd hcs (hcos_ne_none e he)
    | some a => rfl
  have hsimOf : ∀ p ∈ scored, simOf vectors q_v p.2 = p.1 := by
    intro p hp
    obtain ⟨e, he, hne, rfl⟩ := hmem p hp
    show simOf vectors q_v e.1 = _
    unfold simOf
    rw [mem_alookup hnd (show (e.1, e.2) ∈ vectors by simpa using he)]
    rfl
  have hperm := sortD_perm scored
  have hsorted := sortD_sorted scored hsome
  have htsub : ((sortByScoreDesc scored).take k).Sublist (sortByScoreDesc scored) :=
    List.take_sublist _ _
  have hmem_take : ∀ p ∈ (sortByScoreDesc scored).take k, p ∈ scored :=
    fun p hp => hperm.mem_iff.mp (htsub.subset hp)
  refine ⟨?_, ?_, ?_, ?_⟩
  · rw [hfs, List.length_map]
    exact List.length_take_le _ _
  · rw [hfs, List.pairwise_map]
    have hps : ((sortByScoreDesc scored).take k).Pairwise (fun a b => scoreGe a.1 b.1) :=
      List.Pairwise.sublist htsub hsorted
    refine hps.imp_of_mem ?_
    intro a b ha hb hab
    rw [hsimOf a (hmem_take a ha), hsimOf b (hmem_take b hb)]
    exact hab
  · rw [hfs]
    intro f hf
    obtain ⟨p, hp, rfl⟩ := List.mem_map.mp hf
    have hps := hmem_take p hp
    obtain ⟨e, he, hne, hpe⟩ := hmem p hps
    rw [hsimOf p hps, hpe]
    exact ⟨hne, hcos_ne_none e he⟩
  · intro e he hne hlen
    rw [hfs]
    have hlen2 : scored.length ≤ k := by
      rw [hscored, scored_eq_map_filter, List.length_map]
      exact hlen
    have htk : (sortByScoreDesc scored).take k = sortByScoreDesc scored :=
      List.take_of_length_le (by rw [hperm.length_eq]; exact hlen2)
    rw [show pyNlargest k scored = (sortByScoreDesc scored).take k from rfl, htk]
    apply List.mem_map.mpr
    refine ⟨(cosine_similarity e.2 q_v, e.1), ?_, rfl⟩
    exact hperm.mem_iff.mpr (mem_scored.mpr ⟨e, he, hne, rfl⟩)

open Classical in
/-- C6 (witness): the amended theorem applied to two nonzero-norm
stored vectors and the query `[3, 4]` with `k = 1`, the hypotheses
discharged by computation. -/
theorem c6_witness :
    (∃ x ∈ [(3 : ℝ), 4], x ≠ 0) ∧
    (∀ e ∈ [("d1", [(3 : ℝ), 4]), ("d2", [(4 : ℝ), 3])], dot e.2 e.2 ≠ 0) ∧
    (([("d1", [(3 : ℝ), 4]), ("d2", [(4 : ℝ), 3])].map Prod.fst).Nodup) ∧
    ((find_similar [("d1", [(3 : ℝ), 4]), ("d2", [(4 : ℝ), 3])] [(3 : ℝ), 4] 1).length ≤ 1 ∧
    (find_similar [("d1", [(3 : ℝ), 4]), ("d2", [(4 : ℝ), 3])] [(3 : ℝ), 4] 1).Pairwise
      (fun f g => scoreGe (simOf [("d1", [(3 : ℝ), 4]), ("d2", [(4 : ℝ), 3])] [(3 : ℝ), 4] f)
        (simOf [("d1", [(3 : ℝ), 4]), ("d2", [(4 : ℝ), 3])] [(3 : ℝ), 4] g)) ∧
    (∀ f ∈ find_similar [("d1", [(3 : ℝ), 4]), ("d2", [(4 : ℝ), 3])] [(3 : ℝ), 4] 1,
      simOf [("d1", [(3 : ℝ), 4]), ("d2", [(4 : ℝ), 3])] [(3 : ℝ), 4] f ≠ some 0 ∧
      simOf [("d1", [(3 : ℝ), 4]), ("d2", [(4 : ℝ), 3])] [(3 : ℝ), 4] f ≠ none) ∧
    (∀ e ∈ [("d1", [(3 : ℝ), 4]), ("d2", [(4 : ℝ), 3])],
      cosine_similarity e.2 [(3 : ℝ), 4] ≠ some 0 →
      ([("d1", [(3 : ℝ), 4]), ("d2", [(4 : ℝ), 3])].filter fun e' =>
        decide (cosine_similarity e'.2 [(3 : ℝ), 4] ≠ some 0)).length ≤ 1 →
      e.1 ∈ find_similar [("d1", [(3 : ℝ), 4]), ("d2", [(4 : ℝ), 3])] [(3 : ℝ), 4] 1)) := by
  have h1 : ∃ x ∈ [(3 : ℝ), 4], x ≠ 0 := ⟨3, by simp, by norm_num⟩
  have h2 : ∀ e ∈ [("d1", [(3 : ℝ), 4]), ("d2", [(4 : ℝ), 3])], dot e.2 e.2 ≠ 0 := by
    intro e he
    rcases List.mem_cons.mp he with rfl | he
    · simp [dot]
      norm_num
    · rcases List.mem_singleton.mp he with rfl
      simp [dot]
      norm_num
  have h3 : (([("d1", [(3 : ℝ), 4]), ("d2", [(4 : ℝ), 3])].map Prod.fst).Nodup) := by decide
  exact ⟨h1, h2, h3, c6_amended_find_similar _ _ 1 h1 h2 h3⟩

/-- C6 (counterexample): the claim quantifies over every vectors
mapping.  With a zero-norm stored vector, its similarity is NaN
(`none`), which the `if r:` filter keeps, and the heap selection places
the NaN-scored document *ahead* of a document of similarity `1` (this
matches a hand trace of `heapq.nlargest` on CPython: all comparisons
against NaN are false).  The returned list is therefore not ordered by
non-increasing similarity. -/
theorem c6_counterexample :
    find_similar [("d1", [(0 : ℝ), 0]), ("d2", [(3 : ℝ), 4])] [(3 : ℝ), 4] 2 = ["d1", "d2"] ∧
    simOf [("d1", [(0 : ℝ), 0]), ("d2", [(3 : ℝ), 4])] [(3 : ℝ), 4] "d1" = none ∧
    simOf [("d1", [(0 : ℝ), 0]), ("d2", [(3 : ℝ), 4])] [(3 : ℝ), 4] "d2" = some 1 ∧
    ¬ (find_similar [("d1", [(0 : ℝ), 0]), ("d2", [(3 : ℝ), 4])] [(3 : ℝ), 4] 2).Pairwise
        (fun f g => scoreGe (simOf [("d1", [(0 : ℝ), 0]), ("d2", [(3 : ℝ), 4])] [(3 : ℝ), 4] f)
          (simOf [("d1", [(0 : ℝ), 0]), ("d2", [(3 : ℝ), 4])] [(3 : ℝ), 4] g)) := by
  have hc1 : cosine_similarity [(0 : ℝ), 0] [(3 : ℝ), 4] = none := by
    rw [cosine_eq_none_iff]
    left
    simp [dot]
  have hdot : dot [(3 : ℝ), 4] [(3 : ℝ), 4] = 25 := by
    simp [dot]
    norm_num
  have hc2 : cosine_similarity [(3 : ℝ), 4] [(3 : ℝ), 4] = some 1 := by
    rw [cosine_eq_some _ _ (by rw [hdot]; norm_num) (by rw [hdot]; norm_num)]
    have hn : norm [(3 : ℝ), 4] * norm [(3 : ℝ), 4] = 25 := by
      unfold norm
      rw [hdot]
      exact Real.mul_self_sqrt (by norm_num)
    rw [hn, hdot]
    norm_num
  have hfs : find_similar [("d1", [(0 : ℝ), 0]), ("d2", [(3 : ℝ), 4])] [(3 : ℝ), 4] 2 =
      ["d1", "d2"] := by
    rw [find_similar, if_neg (fun h => (by norm_num : (3 : ℝ) ≠ 0) (h 3 (by simp)))]
    simp only [List.foldl_cons, List.foldl_nil, hc1, hc2]
    rw [if_pos (show (none : Option ℝ) ≠ some 0 by simp),
      if_pos (show (some (1 : ℝ)) ≠ some 0 by simp)]
    have hng : ¬ pyGt (some (1 : ℝ)) none := by
      rintro ⟨x, y, _, hy, _⟩
      exact Option.noConfusion hy
    simp only [List.nil_append, List.singleton_append]
    simp only [pyNlargest, sortByScoreDesc, List.foldl_cons, List.foldl_nil, insertD]
    rw [if_neg hng]
    rfl
  have hs1 : simOf [("d1", [(0 : ℝ), 0]), ("d2", [(3 : ℝ), 4])] [(3 : ℝ), 4] "d1" = none := by
    unfold simOf
    have : alookup [("d1", [(0 : ℝ), 0]), ("d2", [(3 : ℝ), 4])] "d1" = some [(0 : ℝ), 0] :=
      rfl
    rw [this, Option.some_bind, hc1]
  have hs2 : simOf [("d1", [(0 : ℝ), 0]), ("d2", [(3 : ℝ), 4])] [(3 : ℝ), 4] "d2" =
      some 1 := by
    unfold simOf
    have : alookup [("d1", [(0 : ℝ), 0]), ("d2", [(3 : ℝ), 4])] "d2" = some [(3 : ℝ), 4] := by
      simp [alookup]
    rw [this, Option.some_bind, hc2]
  refine ⟨hfs, hs1, hs2, ?_⟩
  rw [hfs]
  intro hc
  rw [List.pairwise_cons] at hc
  obtain ⟨x, y, hx, -, -⟩ := hc.1 "d2" (List.mem_singleton.mpr rfl)
  rw [hs1] at hx
  exact Option.noConfusion hx

lemma qv_fold_oov (m : VectorModel) (q : List String) (ts : List String)
    (h : ∀ t ∈ ts, alookup m.vmList t = none) :
    ∀ z, ts.foldl (qvStep m q) z = z := by
  induction ts with
  | nil => intro z; rfl
  | cons t0 tl ih =>
    intro z
    rw [List.foldl_cons, qvStep_oov _ _ (h t0 (List.mem_cons_self _ _)) z]
    exact ih (fun t ht => h t (List.mem_cons_of_mem _ ht)) z

/-- C4 (amended): an all-out-of-vocabulary query vectorizes to the zero
vector and `find_similar` then short-circuits to `[]`; but
`find_similar_with_index` ignores the query vector entirely when
selecting candidates — it returns (a permutation of) every document
sharing a raw lowercase whitespace-split token with the index,
scoring the candidates against the zero vector (all-NaN scores), so its
result is empty only when no raw token has postings.  (The raw split
path diverges from the normalizer that produced `ws`, which is what
allows `ws` to be out of vocabulary while a raw token still hits the
index — e.g. a stop word that the normalizer drops.) -/
theorem c4_amended_oov_query (corpus : List (String × String))
    (vectors : List (String × List ℝ)) (idx : Index) (raw : String)
    (ws : List String) (k : ℕ)
    (hoov : ∀ w ∈ ws, alookup (mkVectorModel corpus).vmList w = none) :
    (mkVectorModel corpus).query_vectorize ws =
      some (List.replicate (mkVectorModel corpus).num_terms 0) ∧
    find_similar vectors (List.replicate (mkVectorModel corpus).num_terms 0) k = [] ∧
    ((find_similar_with_index idx vectors raw
        (List.replicate (mkVectorModel corpus).num_terms 0)).1).Perm
      ((gatherPostings idx (queryTerms raw)).1.dedup) := by
  refine ⟨?_, ?_, ?_⟩
  · unfold VectorModel.query_vectorize
    exact qv_fold_oov _ _ _ (fun t ht => hoov t (List.mem_dedup.mp ht)) _
  · rw [find_similar, if_pos (fun x hx => List.eq_of_mem_replicate hx)]
  · show ((sortByScoreDesc ((gatherPostings idx (queryTerms raw)).1.dedup.map fun d =>
        (cosine_similarity ((alookup vectors d).getD [])
          (List.replicate (mkVectorModel corpus).num_terms 0), d))).map Prod.snd).Perm _
    refine ((sortD_perm _).map Prod.snd).trans ?_
    rw [List.map_map]
    rw [show (Prod.snd ∘ fun d => (cosine_similarity ((alookup vectors d).getD [])
      (List.replicate (mkVectorModel corpus).num_terms 0), d)) = id from rfl, List.map_id]

/-- C4 (counterexample): the claim says both ranking paths return `[]`
for an all-out-of-vocabulary query.  Corpus: one document `"aaa the"`;
stored vector `[0, 1]` (so `"the"` has a posting).  The raw query text
`"the"` normalizes to the empty term list (a stop word the external
normalizer drops), which is vacuously all-out-of-vocabulary and gives
the zero query vector; `find_similar` returns `[]`, but
`find_similar_with_index` returns `["d1"]` — scored against the zero
vector, i.e. with a NaN similarity. -/
theorem c4_counterexample :
    (mkVectorModel [("d1", "aaa the")]).query_vectorize [] =
      some (List.replicate (mkVectorModel [("d1", "aaa the")]).num_terms 0) ∧
    find_similar [("d1", [(0 : ℝ), 1])]
      (List.replicate (mkVectorModel [("d1", "aaa the")]).num_terms 0) 5 = [] ∧
    create_inverted_index (mkVectorModel [("d1", "aaa the")]) [("d1", [(0 : ℝ), 1])] [] =
      [("the", ["d1"])] ∧
    (find_similar_with_index
        (create_inverted_index (mkVectorModel [("d1", "aaa the")]) [("d1", [(0 : ℝ), 1])] [])
        [("d1", [(0 : ℝ), 1])] "the"
        (List.replicate (mkVectorModel [("d1", "aaa the")]).num_terms 0)).1 = ["d1"] := by
  have hvm : (mkVectorModel [("d1", "aaa the")]).vmList = [("aaa", 0), ("the", 1)] := by
    decide
  have hidx : create_inverted_index (mkVectorModel [("d1", "aaa the")])
      [("d1", [(0 : ℝ), 1])] [] = [("the", ["d1"])] := by
    unfold create_inverted_index
    rw [List.foldl_cons, List.foldl_nil, hvm, List.foldl_cons, List.foldl_cons,
      List.foldl_nil]
    rw [if_neg (show ¬(0 : ℝ) < vecGet [(0 : ℝ), 1] 0 by norm_num [vecGet]),
      if_pos (show (0 : ℝ) < vecGet [(0 : ℝ), 1] 1 by norm_num [vecGet])]
    rfl
  refine ⟨rfl, ?_, hidx, ?_⟩
  · rw [find_similar, if_pos (fun x hx => List.eq_of_mem_replicate hx)]
  · rw [hidx]
    rfl

/-- C4 (witness): the amended theorem applied to the one-document
corpus with the out-of-vocabulary query word list `["zz"]`. -/
theorem c4_witness :
    (∀ w ∈ (["zz"] : List String),
      alookup (mkVectorModel [("d1", "aaa the")]).vmList w = none) ∧
    ((mkVectorModel [("d1", "aaa the")]).query_vectorize ["zz"] =
      some (List.replicate (mkVectorModel [("d1", "aaa the")]).num_terms 0) ∧
    find_similar [("d1", [(0 : ℝ), 1])]
      (List.replicate (mkVectorModel [("d1", "aaa the")]).num_terms 0) 3 = [] ∧
    ((find_similar_with_index ([] : Index) [("d1", [(0 : ℝ), 1])] "zz"
        (List.replicate (mkVectorModel [("d1", "aaa the")]).num_terms 0)).1).Perm
      ((gatherPostings ([] : Index) (queryTerms "zz")).1.dedup)) := by
  have hoov : ∀ w ∈ (["zz"] : List String),
      alookup (mkVectorModel [("d1", "aaa the")]).vmList w = none := by decide
  exact ⟨hoov,
    c4_amended_oov_query [("d1", "aaa the")] [("d1", [(0 : ℝ), 1])] [] "zz" ["zz"] 3 hoov⟩

end VecIR
